import Mathlib

/-!
Verification of the fork-graph discovery tool `github-reindex.py`
(repository talonvoice/livegrep).

The Python source is shallowly embedded below.  Network I/O is abstracted:
the remote API's responses are passed in as explicit data (a response
sequence for `fetch`, a self-record plus page function for `get_forks`, and
a per-key record-list environment for `get_forks_recursive`), and side
effects (sleeps, fetches) are returned as explicit logs.  The Python `list`
used as a LIFO work stack in `get_forks_recursive` is modelled as a Lean
`List` with its top at the head (Python appends/pops at the tail; both give
the same last-in-first-out behaviour, with a batch of appends entering in
order and leaving in reverse order, which the model realizes by prepending
the reversed batch).
-/

namespace GithubReindex

/-- The `Fork` dataclass of the source (`Fork.parse` fields, in order):
owner login, repository name, `html_url`, `clone_url`, `git_url`, `ssh_url`,
`forks_count`, `stargazers_count`. -/
structure Fork where
  user : String
  repo : String
  url : String
  http_url : String
  git_url : String
  ssh_url : String
  forks : Nat
  stars : Nat
deriving DecidableEq, Repr

/-- Identity key of a repository: the `(owner, name)` pair. -/
abbrev Key := String × String

/-- The `fork_key = (fork.user, fork.repo)` computed in `get_forks_recursive`. -/
def keyOf (f : Fork) : Key := (f.user, f.repo)

/-! ## Rate limiter gate: `await_rate_limit` (source lines 37-44)

The quota-status response is passed in as its two used fields
(`resources.core.remaining`, `resources.core.reset`); `time.time()` is
modelled as the single instant `now` (integral seconds).  The function's
only observable effect is its `time.sleep` calls, returned as a list of
slept durations. -/

/-- `await_rate_limit`: if `core["remaining"] == 0`, sleep
`min(3600, core["reset"] - time.time() + 5)` seconds (the source also binds
this value to a dead local `reset` on line 43); otherwise do nothing. -/
def await_rate_limit (core_remaining : Nat) (core_reset : Int) (now : Int) : List Int :=
  if core_remaining = 0 then
    let _reset : Int := min 3600 (core_reset - now + 5)
    [min 3600 (core_reset - now + 5)]
  else []

/-! ## Paginated fetcher: `fetch` and `is_rate_limited` (source lines 46-60) -/

/-- An HTTP response as `fetch` observes it: the status code and the
`X-RateLimit-Remaining` header (absent = `none`). -/
structure HResp where
  status : Nat
  rlRemaining : Option String
deriving DecidableEq, Repr

/-- `is_rate_limited`: the `X-RateLimit-Remaining` header is the string "0". -/
def is_rate_limited (r : HResp) : Bool :=
  r.rlRemaining = some "0"

/-- `requests.Response.raise_for_status` raises `HTTPError` exactly for
status codes in `[400, 600)` (client and server errors); for any other
status it is a no-op. -/
def raisesForStatus (r : HResp) : Prop :=
  400 ≤ r.status ∧ r.status < 600

instance (r : HResp) : Decidable (raisesForStatus r) := by
  unfold raisesForStatus; infer_instance

/-- The `for i in range(3)` loop of `fetch`; the response to the
`requests.get` of attempt `j` is `rs j`.  The first argument is the number
of loop iterations left, the second the current attempt index `i` (the loop
maintains `left + i = 3`).  Returns the raised error (`.error r`, from
`r.raise_for_status()`) or the returned response (`.ok r`), paired with the
total number of `requests.get` calls on `url` issued when started from
attempt 0.  On a 200 the loop breaks and `fetch` returns the response; on a
rate-limited 403 it waits (`await_rate_limit`, which does not affect the
result) and continues; on a status for which `raise_for_status` raises, the
error propagates; on any other status `r.raise_for_status()` is a no-op and
the loop simply continues.  When the loop finishes all three iterations
without a `break`, the `for`/`else` clause runs `r.raise_for_status()` on
the last response `rs 2`, which returns that response unchanged when its
status is not an error status. -/
def fetchLoop (rs : Nat → HResp) : Nat → Nat → Except HResp HResp × Nat
  | 0, _i =>
    let r := rs 2
    (if raisesForStatus r then .error r else .ok r, 3)
  | left + 1, i =>
    let r := rs i
    if r.status = 200 then (.ok r, i + 1)
    else if r.status = 403 ∧ is_rate_limited r then fetchLoop rs left (i + 1)
    else if raisesForStatus r then (.error r, i + 1)
    else fetchLoop rs left (i + 1)

/-- `fetch(url)`: run the 3-attempt loop from attempt 0. -/
def fetch (rs : Nat → HResp) : Except HResp HResp × Nat := fetchLoop rs 3 0

/-- A response that `fetch`'s loop passes over and retries: not a 200, and
either a rate-limited 403 (wait-and-retry branch) or a status for which
`raise_for_status` does not raise. -/
def retryable (r : HResp) : Prop :=
  r.status ≠ 200 ∧ ((r.status = 403 ∧ is_rate_limited r) ∨ ¬ raisesForStatus r)

instance (r : HResp) : Decidable (retryable r) := by
  unfold retryable; infer_instance

/-! ## URL parsing: `parse_url` (source lines 96-105)

Python string/`urllib` operations are modelled on `List Char`
(`String.data`), since they belong to external library code.  Each model
follows the documented behaviour of the library function named in its doc
comment. -/

/-- Modelled from Python `str.split(sep)` for a one-character separator:
splits on every occurrence; the empty string yields `[[]]` (one empty
part), mirroring `"".split("/") == [""]`. -/
def splitOnChar (c : Char) : List Char → List (List Char)
  | [] => [[]]
  | ch :: rest =>
    let r := splitOnChar c rest
    if ch = c then [] :: r
    else
      match r with
      | a :: as => (ch :: a) :: as
      | [] => [[]]

/-- First occurrence of the substring `sep` in a character list: returns the
characters before it and the characters after it, or `none` when `sep` does
not occur.  Models both the Python `sep in url` test (occurrence) and the
scheme split of `urllib.parse.urlparse`. -/
def breakOnSub (sep : List Char) : List Char → Option (List Char × List Char)
  | [] => none
  | c :: rest =>
    if sep.isPrefixOf (c :: rest) then some ([], (c :: rest).drop sep.length)
    else
      match breakOnSub sep rest with
      | some (pre, post) => some (c :: pre, post)
      | none => none

/-- Modelled from Python `str.strip(c)` for a one-character argument:
removes every leading and trailing occurrence of `c`. -/
def stripChar (c : Char) (l : List Char) : List Char :=
  ((l.dropWhile (· = c)).reverse.dropWhile (· = c)).reverse

/-- Modelled from `urllib.parse.urlparse`, restricted to inputs containing
a `://` scheme separator and no query or fragment (the only inputs
`parse_url` feeds it, after its scheme-prepending step): the network
location is everything after the first `://` up to the first `/`, and the
path is the remainder starting at that `/` (empty if there is none). -/
def urlparseNetlocPath (url : List Char) : List Char × List Char :=
  match breakOnSub ("://".data) url with
  | none => ([], url)
  | some (_scheme, rest) => (rest.takeWhile (· ≠ '/'), rest.dropWhile (· ≠ '/'))

/-- The scheme-prepending step of `parse_url` (lines 97-98):
`if not "://" in url: url = f"https://{url}"`. -/
def normalizeUrl (url : List Char) : List Char :=
  if (breakOnSub ("://".data) url).isSome then url else "https://".data ++ url

/-- The network location `parse_url` compares against `"github.com"`. -/
def netlocOf (url : List Char) : List Char :=
  (urlparseNetlocPath (normalizeUrl url)).1

/-- The list produced by `path.strip("/").split("/")` on line 104. -/
def pathSegments (url : List Char) : List (List Char) :=
  splitOnChar '/' (stripChar '/' (urlparseNetlocPath (normalizeUrl url)).2)

/-- `parse_url` (lines 96-105).  `.ok (none, none)` is the unknown-host
branch (which also prints a warning to stderr); `.error ()` models the
`ValueError` raised by the unpacking `user, repo, *extra = path.split("/")`
when the split yields fewer than two parts; otherwise the first two path
segments are returned and `*extra` is discarded. -/
def parse_url (url : String) : Except Unit (Option String × Option String) :=
  if netlocOf url.data ≠ "github.com".data then .ok (none, none)
  else
    match pathSegments url.data with
    | user :: repo :: _extra => .ok (some (String.mk user), some (String.mk repo))
    | _ => .error ()

/-- The URL-collection loop of `build_config` (source lines 113-124): each
input URL is parsed in order; a raised `ValueError` propagates and aborts
the whole run (`.error`); `if not repo: continue` skips an input whose
parsed repo is `None` (or empty, `None` being the only case `parse_url`
actually produces alongside a warning); every remaining input contributes
its `(user, repo)` pair, which the loop then feeds to the fork enumeration.
`parse_url` never returns `(None, some r)`, so defaulting the absent user
to `""` is unreachable. -/
def collect_urls : List String → Except Unit (List (String × String))
  | [] => .ok []
  | url :: rest =>
    match parse_url url with
    | .error e => .error e
    | .ok (user, repo) =>
      match repo with
      | none => collect_urls rest
      | some r =>
        if r = "" then collect_urls rest
        else
          match collect_urls rest with
          | .error e => .error e
          | .ok others => .ok ((user.getD "", r) :: others)

/-! ## Fork enumerator: `get_forks` (source lines 62-79)

The two API endpoints it reads are passed in as data: `selfRec` is the
parsed record of `GET /repos/{user}/{repo}`, and `pages n` is the parsed
body of `GET /repos/{user}/{repo}/forks?page={n}`.  The generator's output
is the returned list of records; the page indices actually requested are
returned alongside (the rate-limit waits after a page do not affect either
and are omitted).  `itertools.count()` is unbounded, so the page loop takes
explicit fuel; every claim below supplies enough fuel to reach the first
empty page, at which the loop breaks. -/

/-- The `for page in itertools.count()` loop of `get_forks`, starting at
page index `page` with `fuel` iterations available: fetch the page; if its
body is empty, break; otherwise yield each element and continue with the
next page.  Returns (records yielded, page indices fetched). -/
def forkPages (pages : Nat → List Fork) : Nat → Nat → List Fork × List Nat
  | 0, _page => ([], [])
  | fuel + 1, page =>
    let body := pages page
    if body = [] then ([], [page])
    else
      let rest := forkPages pages fuel (page + 1)
      (body ++ rest.1, page :: rest.2)

/-- `get_forks`: yield the repository's own record first; if its
`forks_count` is falsy (zero), return without fetching any fork page;
otherwise run the page loop from page 0.  Returns (records yielded, fork
page indices fetched). -/
def get_forks (selfRec : Fork) (pages : Nat → List Fork) (fuel : Nat) :
    List Fork × List Nat :=
  if selfRec.forks = 0 then ([selfRec], [])
  else
    let rest := forkPages pages fuel 0
    (selfRec :: rest.1, rest.2)

/-! ## Recursive traversal: `get_forks_recursive` (source lines 81-94)

The environment `env k` is the full (finite) stream of records that
`get_forks user repo` produces for the key `k = (user, repo)` — the self
record followed by the fork-listing elements.  The two Python `set`s are
`Finset`s; the work list is LIFO with its top at the head (see the file
comment).  The loop body's two independent effects — queue appends, which
read only the `fetched` set (constant during one body run), and yields,
which read and update only the `yielded` set — are modelled as separate
passes over `env k`. -/

/-- Traversal state: the two deduplication sets, the work list, the records
yielded so far (in order), and the log of keys passed to `get_forks`
(in call order). -/
structure TravState where
  fetched : Finset Key
  yielded : Finset Key
  queue : List Key
  out : List Fork
  log : List Key
deriving DecidableEq

/-- The queue appends of one loop body: every fork in the list with a
truthy (nonzero) fork count whose key is not in `fetched` (which already
contains the key being processed) is appended, in list order. -/
def pushesOf (fetched : Finset Key) (l : List Fork) : List Key :=
  (l.filter (fun f => decide (f.forks ≠ 0 ∧ keyOf f ∉ fetched))).map keyOf

/-- The records yielded during one loop body: each fork whose key is not
yet in `yielded`, which grows as the body runs. -/
def yieldOuts (yielded : Finset Key) : List Fork → List Fork
  | [] => []
  | f :: fs =>
    if keyOf f ∈ yielded then yieldOuts yielded fs
    else f :: yieldOuts (insert (keyOf f) yielded) fs

/-- The `yielded` set after one loop body. -/
def yieldSet (yielded : Finset Key) : List Fork → Finset Key
  | [] => yielded
  | f :: fs => yieldSet (insert (keyOf f) yielded) fs

/-- One iteration of the `while queue` loop: pop the top key, add it to
`fetched`, run `get_forks` on it (its record stream is `env k`), append the
pushes to the work list (entering in order means leaving in reverse order:
prepend the reversed batch), yield the new records, and log the
`get_forks` call.  On an empty queue the state is unchanged. -/
def stepT (env : Key → List Fork) (s : TravState) : TravState :=
  match s.queue with
  | [] => s
  | k :: rest =>
    let fetched' := insert k s.fetched
    { fetched := fetched'
      yielded := yieldSet s.yielded (env k)
      queue := (pushesOf fetched' (env k)).reverse ++ rest
      out := s.out ++ yieldOuts s.yielded (env k)
      log := s.log ++ [k] }

/-- The `while queue` loop, run for at most `fuel` iterations. -/
def runT (env : Key → List Fork) : Nat → TravState → TravState
  | 0, s => s
  | fuel + 1, s =>
    match s.queue with
    | [] => s
    | _ :: _ => runT env fuel (stepT env s)

/-- The initial state of `get_forks_recursive user repo`: empty sets, the
seed pair on the work list, nothing yielded or logged. -/
def initT (user repo : String) : TravState :=
  { fetched := ∅, yielded := ∅, queue := [(user, repo)], out := [], log := [] }

/-- `get_forks_recursive`, run with the given iteration fuel. -/
def get_forks_recursive (env : Key → List Fork) (user repo : String)
    (fuel : Nat) : TravState :=
  runT env fuel (initT user repo)

/-- The identity keys whose fork lists the traversal seeded at `seed` comes
to expand: the seed itself, and the key of every fork with a truthy fork
count listed in the record stream of an expanded key. -/
inductive Expanded (env : Key → List Fork) (seed : Key) : Key → Prop
  | seed : Expanded env seed seed
  | step {p : Key} {f : Fork} : Expanded env seed p → f ∈ env p →
      f.forks ≠ 0 → Expanded env seed (keyOf f)

/-- The identity keys reachable in the fork graph from `seed`: those
appearing in the record stream of some expanded key. -/
def ReachKey (env : Key → List Fork) (seed : Key) (k : Key) : Prop :=
  ∃ p f, Expanded env seed p ∧ f ∈ env p ∧ keyOf f = k

/-! ## Config emitter: the sort and entry construction of `build_config`
(source lines 107-143) -/

/-- Equality on `Except` values is decidable componentwise. -/
instance {ε α : Type} [DecidableEq ε] [DecidableEq α] : DecidableEq (Except ε α) := fun a b =>
  match a, b with
  | .error e, .error f =>
    if h : e = f then isTrue (by rw [h]) else isFalse (fun hc => h (by cases hc; rfl))
  | .ok x, .ok y =>
    if h : x = y then isTrue (by rw [h]) else isFalse (fun hc => h (by cases hc; rfl))
  | .error _, .ok _ => isFalse (fun hc => by cases hc)
  | .ok _, .error _ => isFalse (fun hc => by cases hc)

/-- One descending-insertion step: place `f` before the first element with
at most as many stars, keeping earlier input before it on ties. -/
def starsDescInsert (f : Fork) : List Fork → List Fork
  | [] => [f]
  | g :: gs => if g.stars ≤ f.stars then f :: g :: gs else g :: starsDescInsert f gs

/-- Modelled from Python `list.sort(key=lambda x: x.stars, reverse=True)`
on line 125: Python's sort is stable, and for sorting by a key a stable
sort's output is unique, so the stable insertion sort here computes the
same list.  `list.sort` belongs to the Python runtime, an external
collaborator. -/
def sortByStarsDesc (l : List Fork) : List Fork :=
  l.foldr starsDescInsert []

/-- One entry of the emitted `repos` array (source lines 133-141). -/
structure RepoEntry where
  path : String
  name : String
  revisions : List String
  remote : String
  github : String
deriving DecidableEq, Repr

/-- The entry built for one fork record: the output path
`fpath / fork.user / fork.repo`, the display name `user/repo`, the fixed
revision list `["HEAD"]`, and the two URLs.  (`pathlib`'s `/` is modelled
as separator concatenation.) -/
def entryOf (fpath : String) (f : Fork) : RepoEntry :=
  { path := fpath ++ "/" ++ f.user ++ "/" ++ f.repo
    name := f.user ++ "/" ++ f.repo
    revisions := ["HEAD"]
    remote := f.http_url
    github := f.url }

/-- The `repos` array of the emitted config: the collected records, sorted
by star count descending, each serialized by `entryOf` in sorted order
(source lines 125-141). -/
def build_config_repos (fpath : String) (forks : List Fork) : List RepoEntry :=
  (sortByStarsDesc forks).map (entryOf fpath)

/-! ## Fixtures: concrete fork graphs used in the claims -/

/-- A record with the given identity and fork count (the URL fields and the
star count play no role in traversal). -/
def mkRec (user repo : String) (forks : Nat) : Fork :=
  ⟨user, repo, "", "", "", "", forks, 0⟩

/-- A record with the given identity, name and star count, for the config
emitter claims. -/
def mkStarRec (user repo : String) (stars : Nat) : Fork :=
  ⟨user, repo, "", "", "", "", 0, stars⟩

/-- The two-cycle fork graph of the spec's testable property: repository
`alice/ra` lists `bob/rb` as a fork and vice versa; both report a nonzero
fork count. -/
def envCycle : Key → List Fork := fun k =>
  if k = ("alice", "ra") then [mkRec "alice" "ra" 1, mkRec "bob" "rb" 1]
  else if k = ("bob", "rb") then [mkRec "bob" "rb" 1, mkRec "alice" "ra" 1]
  else []

/-- The key universe of `envCycle`. -/
def cycleU : Finset Key := {("alice", "ra"), ("bob", "rb")}

/-- A fork graph in which `al/r2` is discovered as a fork of two different
parents (`sam/rs` and `bo/r2`) before it is first processed: the seed
`sam/rs` lists both `al/r2` and `bo/r2` as forks, and `bo/r2` lists `al/r2`
again. -/
def envDouble : Key → List Fork := fun k =>
  if k = ("sam", "rs") then [mkRec "sam" "rs" 2, mkRec "al" "r2" 1, mkRec "bo" "r2" 1]
  else if k = ("bo", "r2") then [mkRec "bo" "r2" 1, mkRec "al" "r2" 1]
  else if k = ("al", "r2") then [mkRec "al" "r2" 1]
  else []

/-- A repository record with two pages of forks, for the enumerator
claims. -/
def selfTwoForks : Fork := mkRec "w" "rw" 2

/-- A forks listing with two one-element pages; page 2 is the first empty
page. -/
def twoPages : Nat → List Fork := fun n =>
  if n = 0 then [mkRec "x" "rx" 0] else if n = 1 then [mkRec "y" "ry" 0] else []

/-! ## Termination measure and traversal invariant -/

/-- Credit of `L` when the key on top of the work list has already been
fetched: processing it cannot shrink the unfetched count, but everything it
pushes is unfetched, so the unfetched count shrinks on the very next
iteration. -/
def headCredit (L : Nat) (s : TravState) : Nat :=
  match s.queue with
  | [] => 0
  | k :: _ => if k ∈ s.fetched then L else 0

/-- Termination measure for the `while queue` loop over a key universe `U`
with per-key record lists of length at most `L`: fewer unfetched keys
dominate; then the work-list length; plus the head credit. -/
def travMeasure (U : Finset Key) (L : Nat) (s : TravState) : Nat :=
  (2 * L + 1) * (U \ s.fetched).card + s.queue.length + headCredit L s

/-- The inductive invariant of `get_forks_recursive` relating the state to
the fork graph: yielded keys are exactly the keys listed by fetched
parents, appear in the output without duplication, and the fetched set
together with the pending work list covers the seed and every expandable
fork of a fetched parent. -/
structure TravInv (env : Key → List Fork) (seed : Key) (s : TravState) : Prop where
  nodup : (s.out.map keyOf).Nodup
  out_yielded : ∀ x, x ∈ s.out.map keyOf ↔ x ∈ s.yielded
  yielded_fetched : ∀ x, x ∈ s.yielded ↔ ∃ p ∈ s.fetched, ∃ f ∈ env p, keyOf f = x
  fetched_exp : ∀ p ∈ s.fetched, Expanded env seed p
  queue_exp : ∀ p ∈ s.queue, Expanded env seed p
  seed_mem : seed ∈ s.fetched ∨ seed ∈ s.queue
  closed_mem : ∀ p ∈ s.fetched, ∀ f ∈ env p, f.forks ≠ 0 →
      keyOf f ∈ s.fetched ∨ keyOf f ∈ s.queue

/-! ## Lemmas about the fetcher -/

/-- A retryable response makes one loop iteration fall through to the next
attempt. -/
theorem fetchLoop_retry (rs : Nat → HResp) (n i : Nat) (h : retryable (rs i)) :
    fetchLoop rs (n + 1) i = fetchLoop rs n (i + 1) := by
  obtain ⟨h200, hrest⟩ := h
  simp only [fetchLoop]
  rw [if_neg h200]
  by_cases hcase : (rs i).status = 403 ∧ is_rate_limited (rs i)
  · rw [if_pos hcase]
  · have hnr : ¬ raisesForStatus (rs i) := by
      rcases hrest with h | h
      · exact absurd h hcase
      · exact h
    rw [if_neg hcase, if_neg hnr]

/-- If the first `i ≤ 3` responses are all retryable, `fetch` behaves as the
loop started at attempt `i`. -/
theorem fetch_eq_fetchLoop (rs : Nat → HResp) :
    ∀ i, i ≤ 3 → (∀ j, j < i → retryable (rs j)) → fetch rs = fetchLoop rs (3 - i) i
  | 0, _, _ => rfl
  | i + 1, hi, hprev => by
    have ih : fetch rs = fetchLoop rs (3 - i) i :=
      fetch_eq_fetchLoop rs i (by omega) (fun j hj => hprev j (by omega))
    have h3 : 3 - i = (3 - (i + 1)) + 1 := by omega
    rw [ih, h3, fetchLoop_retry rs _ i (hprev i (by omega))]

/-- C3 (amended): `fetch` returns the response immediately on the first
HTTP 200; on a status for which `raise_for_status` raises (a 4xx/5xx) that
is not a rate-limited 403 it raises an HTTP error on that same attempt
without retrying; any other non-200 status (like a rate-limited 403) only
consumes an attempt; and if all 3 attempts complete without a 200,
`raise_for_status` is applied to the last attempt's response — raising an
HTTP error if it is a 4xx/5xx, and otherwise returning that response. -/
theorem fetch_attempt_behaviour (rs : Nat → HResp) (i : Nat) (hi : i < 3)
    (hprev : ∀ j, j < i → retryable (rs j)) :
    ((rs i).status = 200 → fetch rs = (.ok (rs i), i + 1)) ∧
    (raisesForStatus (rs i) → ¬ ((rs i).status = 403 ∧ is_rate_limited (rs i)) →
      fetch rs = (.error (rs i), i + 1)) ∧
    ((∀ j, j < 3 → retryable (rs j)) →
      fetch rs = (if raisesForStatus (rs 2) then .error (rs 2) else .ok (rs 2), 3)) := by
  have heq := fetch_eq_fetchLoop rs i (by omega) hprev
  have h3 : 3 - i = (3 - i - 1) + 1 := by omega
  refine ⟨fun h200 => ?_, fun hrs hn43 => ?_, fun hall => ?_⟩
  · rw [heq, h3]
    simp only [fetchLoop]
    rw [if_pos h200]
  · have h200 : ¬ (rs i).status = 200 := by
      obtain ⟨ha, hb⟩ := hrs
      omega
    rw [heq, h3]
    simp only [fetchLoop]
    rw [if_neg h200, if_neg hn43, if_pos hrs]
  · have heq3 := fetch_eq_fetchLoop rs 3 (by omega) hall
    rw [heq3]
    rfl

/-- Witness for `fetch_attempt_behaviour`: a plain 404 on the first attempt
raises the HTTP error at once, after a single request. -/
theorem fetch_attempt_behaviour_witness :
    fetch (fun _ => ⟨404, none⟩) = (.error ⟨404, none⟩, 1) :=
  (fetch_attempt_behaviour (fun _ => ⟨404, none⟩) 0 (by omega)
      (fun j hj => absurd hj (by omega))).2.1 (by decide) (by decide)

/-- C3 counterexample: for the response sequence that always returns
HTTP 204 — a non-200 status that is neither a 403 nor an error status —
`fetch` does not raise an HTTP error on the first attempt as the claim
requires: it retries all 3 attempts and then returns the 204 response,
because `raise_for_status` only raises for 4xx/5xx statuses. -/
theorem fetch_returns_204_after_retries :
    fetch (fun _ => ⟨204, none⟩) = (.ok ⟨204, none⟩, 3) := rfl

/-! ## Lemmas about the rate limiter gate -/

/-- C5: when the remaining core quota is zero, `await_rate_limit` sleeps
exactly once, for `min 3600 (reset - now + 5)` seconds — never more than
3600; when the remaining quota is nonzero it does not sleep at all. -/
theorem await_rate_limit_sleep (remaining : Nat) (reset now : Int) :
    (remaining = 0 →
      await_rate_limit remaining reset now = [min 3600 (reset - now + 5)]) ∧
    (remaining ≠ 0 → await_rate_limit remaining reset now = []) ∧
    (∀ d ∈ await_rate_limit remaining reset now, d ≤ 3600) := by
  refine ⟨fun h => by simp [await_rate_limit, h],
          fun h => by simp [await_rate_limit, h], ?_⟩
  intro d hd
  unfold await_rate_limit at hd
  split at hd
  · simp only [List.mem_singleton] at hd
    rw [hd]
    exact min_le_left 3600 _
  · simp at hd

/-- Witness for `await_rate_limit_sleep`: with `remaining = 0` and
`reset = now + 10` (here `now = 100`), the gate sleeps 15 seconds. -/
theorem await_rate_limit_sleep_witness : await_rate_limit 0 110 100 = [15] :=
  ((await_rate_limit_sleep 0 110 100).1 rfl).trans (by decide)

/-! ## Lemmas about URL parsing and the input loop -/

/-- An input whose normalized network location is not `github.com` parses
to the warn-and-skip value `(None, None)`. -/
theorem parse_url_unknown_host (url : String)
    (h : netlocOf url.data ≠ "github.com".data) :
    parse_url url = .ok (none, none) := by
  unfold parse_url
  rw [if_pos h]

/-- C4 counterexample: the input `"octocat/Hello-World"` (no scheme) is not
parsed as owner `octocat` and repo `Hello-World`; prepending `https://`
makes `octocat` the network location, which is not `github.com`, so the
input is skipped as an unknown host. -/
theorem parse_url_bare_pair_not_github :
    parse_url "octocat/Hello-World" = .ok (none, none) ∧
    parse_url "octocat/Hello-World" ≠ .ok (some "octocat", some "Hello-World") :=
  ⟨rfl, by decide⟩

/-- C4 (amended): a scheme-less input is treated as `https://` plus the
input, so a bare `owner/repo` path such as `"octocat/Hello-World"` has the
owner taken for the host and is skipped as an unknown host; the owner and
repository are extracted only when the host is `github.com`, as in
`"github.com/octocat/Hello-World"` or the full URL. -/
theorem parse_url_scheme_prepending :
    parse_url "github.com/octocat/Hello-World" =
      .ok (some "octocat", some "Hello-World") ∧
    parse_url "https://github.com/octocat/Hello-World" =
      .ok (some "octocat", some "Hello-World") ∧
    parse_url "octocat/Hello-World" = .ok (none, none) :=
  ⟨rfl, rfl, rfl⟩

/-- C10: for a URL whose host is `github.com`, fewer than two path segments
make `parse_url` raise (the unpacking `user, repo, *extra` fails with a
`ValueError`, aborting the run), while with two or more segments only the
first two are used and the extras are discarded. -/
theorem parse_url_github_segments (url : String)
    (h : netlocOf url.data = "github.com".data) :
    ((pathSegments url.data).length < 2 → parse_url url = .error ()) ∧
    (∀ u r extra, pathSegments url.data = u :: r :: extra →
      parse_url url = .ok (some (String.mk u), some (String.mk r))) := by
  have hif : ¬ netlocOf url.data ≠ "github.com".data := fun hn => hn h
  constructor
  · intro hlen
    unfold parse_url
    rw [if_neg hif]
    cases hseg : pathSegments url.data with
    | nil => rfl
    | cons a t =>
      cases t with
      | nil => rfl
      | cons b t2 =>
        rw [hseg] at hlen
        simp only [List.length_cons] at hlen
        omega
  · intro u r extra hseg
    unfold parse_url
    rw [if_neg hif, hseg]

/-- Witness for `parse_url_github_segments`: `https://github.com/foo` has
one segment and raises; `https://github.com/a/b/c/d` yields `(a, b)` with
`c/d` discarded. -/
theorem parse_url_github_segments_witness :
    parse_url "https://github.com/foo" = .error () ∧
    parse_url "https://github.com/a/b/c/d" = .ok (some "a", some "b") :=
  ⟨(parse_url_github_segments "https://github.com/foo" (by decide)).1 (by decide),
   (parse_url_github_segments "https://github.com/a/b/c/d" (by decide)).2
     "a".data "b".data ["c".data, "d".data] (by decide)⟩

/-- Skipping an input leaves the collected pair list of the remaining
inputs unchanged, wherever the skipped input sits. -/
theorem collect_urls_skip (url : String) (hp : parse_url url = .ok (none, none)) :
    ∀ us vs : List String, collect_urls (us ++ url :: vs) = collect_urls (us ++ vs)
  | [], vs => by
    simp only [List.nil_append, collect_urls, hp]
  | u :: us, vs => by
    simp only [List.cons_append, collect_urls, List.append_eq]
    rw [collect_urls_skip url hp us vs]

/-- C9: an input URL whose host is not `github.com` is skipped — it parses
to the warn-and-skip value, and the collection over the other inputs is
exactly what it would have been without it; the run is not aborted. -/
theorem unknown_host_input_skipped (us vs : List String) (url : String)
    (h : netlocOf url.data ≠ "github.com".data) :
    parse_url url = .ok (none, none) ∧
    collect_urls (us ++ url :: vs) = collect_urls (us ++ vs) :=
  ⟨parse_url_unknown_host url h,
   collect_urls_skip url (parse_url_unknown_host url h) us vs⟩

/-- Witness for `unknown_host_input_skipped`: a `gitlab.com` URL between
two github inputs is dropped and processing continues. -/
theorem unknown_host_input_skipped_witness :
    parse_url "https://gitlab.com/foo/bar" = .ok (none, none) ∧
    collect_urls ["https://github.com/a/b", "https://gitlab.com/foo/bar",
        "github.com/c/d"] =
      collect_urls ["https://github.com/a/b", "github.com/c/d"] :=
  unknown_host_input_skipped ["https://github.com/a/b"] ["github.com/c/d"]
    "https://gitlab.com/foo/bar" (by decide)

/-! ## Lemmas about the fork enumerator -/

/-- The page loop, started at page `p` with the first empty page `N` pages
ahead and enough fuel, yields the concatenation of the `N` non-empty pages
in page order and fetches pages `p` through `p + N`. -/
theorem forkPages_spec (pages : Nat → List Fork) :
    ∀ (N fuel p : Nat), N < fuel → pages (p + N) = [] →
      (∀ i, i < N → pages (p + i) ≠ []) →
      forkPages pages fuel p =
        ((List.range N).flatMap fun i => pages (p + i),
         (List.range (N + 1)).map (p + ·))
  | 0, fuel, p, hfuel, hN, _ => by
    obtain ⟨m, rfl⟩ : ∃ m, fuel = m + 1 := ⟨fuel - 1, by omega⟩
    simp only [forkPages]
    rw [if_pos (by simpa using hN)]
    rw [show List.range 1 = [0] from rfl]
    simp
  | N + 1, fuel, p, hfuel, hN, hne => by
    obtain ⟨m, rfl⟩ : ∃ m, fuel = m + 1 := ⟨fuel - 1, by omega⟩
    have h0 : pages p ≠ [] := by simpa using hne 0 (by omega)
    have ih := forkPages_spec pages N m (p + 1) (by omega)
      (by rw [show p + 1 + N = p + (N + 1) by omega]; exact hN)
      (fun i hi => by
        rw [show p + 1 + i = p + (i + 1) by omega]
        exact hne (i + 1) (by omega))
    simp only [forkPages]
    rw [if_neg h0, ih]
    simp only [Prod.mk.injEq]
    refine ⟨?_, ?_⟩
    · rw [List.range_succ_eq_map, List.flatMap_cons, Nat.add_zero]
      congr 1
      conv_rhs => rw [List.flatMap_def, List.map_map]
      rw [List.flatMap_def]
      congr 1
      apply List.map_congr_left
      intro i _
      simp only [Function.comp_apply]
      congr 1
      omega
    · conv_rhs => rw [List.range_succ_eq_map]
      rw [List.map_cons, Nat.add_zero, List.map_map]
      congr 1
      apply List.map_congr_left
      intro i _
      simp only [Function.comp_apply]
      omega

/-- C7: `get_forks` yields the repository's own record first, then the
elements of forks page 0 in API order, then page 1, and so on; it fetches
no fork pages at all when the repository's own fork count is zero, and
otherwise requests pages 0 through the first empty page `N` and stops
there, so that exactly the forks on the non-empty pages are yielded. -/
theorem get_forks_order_and_pagination (selfRec : Fork) (pages : Nat → List Fork)
    (N fuel : Nat) (hfuel : N < fuel) (hN : pages N = [])
    (hne : ∀ i, i < N → pages i ≠ []) :
    (selfRec.forks = 0 → get_forks selfRec pages fuel = ([selfRec], [])) ∧
    (selfRec.forks ≠ 0 →
      get_forks selfRec pages fuel =
        (selfRec :: (List.range N).flatMap pages, List.range (N + 1))) := by
  constructor
  · intro h0
    unfold get_forks
    rw [if_pos h0]
  · intro hforks
    unfold get_forks
    rw [if_neg hforks]
    have hspec := forkPages_spec pages N fuel 0 hfuel (by simpa using hN)
      (fun i hi => by simpa using hne i hi)
    rw [hspec]
    simp

/-- Witness for `get_forks_order_and_pagination`: a record with two
one-record fork pages yields itself, then page 0, then page 1, and fetches
pages 0, 1 and the empty page 2. -/
theorem get_forks_order_and_pagination_witness :
    get_forks selfTwoForks twoPages 5 =
      ([selfTwoForks, mkRec "x" "rx" 0, mkRec "y" "ry" 0], [0, 1, 2]) :=
  ((get_forks_order_and_pagination selfTwoForks twoPages 2 5 (by omega)
      (by decide) (by decide)).2 (by decide)).trans (by decide)

/-! ## Lemmas about the config emitter's sort -/

/-- Inserting a record permutes consing it. -/
theorem starsDescInsert_perm (f : Fork) : ∀ l : List Fork,
    (starsDescInsert f l).Perm (f :: l)
  | [] => List.Perm.refl _
  | g :: gs => by
    unfold starsDescInsert
    split
    · exact List.Perm.refl _
    · exact ((starsDescInsert_perm f gs).cons g).trans (List.Perm.swap f g gs)

/-- Membership in a descending insertion. -/
theorem mem_starsDescInsert {g f : Fork} {l : List Fork} :
    g ∈ starsDescInsert f l ↔ g = f ∨ g ∈ l := by
  rw [(starsDescInsert_perm f l).mem_iff, List.mem_cons]

/-- Descending insertion preserves the descending-stars ordering. -/
theorem starsDescInsert_pairwise (f : Fork) : ∀ l : List Fork,
    l.Pairwise (fun a b => b.stars ≤ a.stars) →
    (starsDescInsert f l).Pairwise (fun a b => b.stars ≤ a.stars)
  | [], _ => by simp [starsDescInsert]
  | g :: gs, h => by
    rw [List.pairwise_cons] at h
    obtain ⟨hg, hgs⟩ := h
    unfold starsDescInsert
    split
    · rename_i hle
      rw [List.pairwise_cons]
      refine ⟨fun x hx => ?_, List.pairwise_cons.2 ⟨hg, hgs⟩⟩
      rcases List.mem_cons.1 hx with rfl | hx2
      · exact hle
      · exact le_trans (hg x hx2) hle
    · rename_i hgt
      rw [List.pairwise_cons]
      refine ⟨fun x hx => ?_, starsDescInsert_pairwise f gs hgs⟩
      rcases mem_starsDescInsert.1 hx with rfl | hx2
      · omega
      · exact hg x hx2

/-- Stability of one insertion: the sublist of records with any given star
count gains `f` at its front when `f` has that star count, and is unchanged
otherwise — the elements `f` is placed after all have strictly more
stars. -/
theorem starsDescInsert_filter (f : Fork) (s : Nat) : ∀ l : List Fork,
    (starsDescInsert f l).filter (fun g => decide (g.stars = s)) =
      if f.stars = s then f :: l.filter (fun g => decide (g.stars = s))
      else l.filter (fun g => decide (g.stars = s))
  | [] => by
    by_cases hf : f.stars = s <;> simp [starsDescInsert, hf]
  | g :: gs => by
    unfold starsDescInsert
    split
    · rename_i hle
      by_cases hf : f.stars = s <;> simp [List.filter_cons, hf]
    · rename_i hgt
      have ih := starsDescInsert_filter f s gs
      by_cases hg : g.stars = s
      · have hf : ¬ f.stars = s := by omega
        simp [List.filter_cons, hg, hf, ih]
      · by_cases hf : f.stars = s <;>
          simp [List.filter_cons, hg, hf, ih]

/-- The sort of `build_config` permutes its input. -/
theorem sortByStarsDesc_perm : ∀ l : List Fork, (sortByStarsDesc l).Perm l
  | [] => List.Perm.refl _
  | f :: fs =>
    (starsDescInsert_perm f (sortByStarsDesc fs)).trans
      ((sortByStarsDesc_perm fs).cons f)

/-- The sort of `build_config` orders star counts descendingly. -/
theorem sortByStarsDesc_pairwise : ∀ l : List Fork,
    (sortByStarsDesc l).Pairwise (fun a b => b.stars ≤ a.stars)
  | [] => List.Pairwise.nil
  | f :: fs => starsDescInsert_pairwise f _ (sortByStarsDesc_pairwise fs)

/-- Stability of the sort: records with any given star count appear in
their input order. -/
theorem sortByStarsDesc_filter (s : Nat) : ∀ l : List Fork,
    (sortByStarsDesc l).filter (fun g => decide (g.stars = s)) =
      l.filter (fun g => decide (g.stars = s))
  | [] => rfl
  | f :: fs => by
    have h1 := starsDescInsert_filter f s (sortByStarsDesc fs)
    have h2 := sortByStarsDesc_filter s fs
    show (starsDescInsert f (sortByStarsDesc fs)).filter _ = _
    rw [h1, h2, List.filter_cons]
    by_cases hf : f.stars = s <;> simp [hf]

/-- C8: `build_config` sorts the collected records by star count in
descending order before serialization — the sorted list is a permutation
of the input, its star counts are non-increasing, and it is stable (the
records with any given star count keep their input order); in particular
records with star counts `[5, 50, 1]` are emitted in order `[50, 5, 1]`. -/
theorem build_config_sorts_by_stars (l : List Fork) (s : Nat) :
    (sortByStarsDesc l).Perm l ∧
    (sortByStarsDesc l).Pairwise (fun a b => b.stars ≤ a.stars) ∧
    (sortByStarsDesc l).filter (fun g => decide (g.stars = s)) =
      l.filter (fun g => decide (g.stars = s)) ∧
    (sortByStarsDesc
        [mkStarRec "u5" "r" 5, mkStarRec "u50" "r" 50, mkStarRec "u1" "r" 1]).map
        Fork.stars = [50, 5, 1] ∧
    build_config_repos "out"
        [mkStarRec "u5" "r" 5, mkStarRec "u50" "r" 50, mkStarRec "u1" "r" 1] =
      [entryOf "out" (mkStarRec "u50" "r" 50), entryOf "out" (mkStarRec "u5" "r" 5),
       entryOf "out" (mkStarRec "u1" "r" 1)] :=
  ⟨sortByStarsDesc_perm l, sortByStarsDesc_pairwise l, sortByStarsDesc_filter s l,
   by decide, by decide⟩

/-! ## Lemmas about one traversal iteration -/

/-- A key is pushed exactly when some fork in the processed list carries
it, has a truthy fork count, and the key is not in the fetched set. -/
theorem mem_pushesOf {x : Key} {fetched : Finset Key} {l : List Fork} :
    x ∈ pushesOf fetched l ↔
      ∃ f, f ∈ l ∧ keyOf f = x ∧ f.forks ≠ 0 ∧ x ∉ fetched := by
  constructor
  · intro hx
    obtain ⟨f, hf, rfl⟩ := List.mem_map.1 hx
    obtain ⟨hfl, hp⟩ := List.mem_filter.1 hf
    obtain ⟨h1, h2⟩ := of_decide_eq_true hp
    exact ⟨f, hfl, rfl, h1, h2⟩
  · rintro ⟨f, hfl, rfl, h1, h2⟩
    exact List.mem_map.2 ⟨f, List.mem_filter.2 ⟨hfl, decide_eq_true ⟨h1, h2⟩⟩, rfl⟩

/-- Pushed keys are never in the fetched set consulted for the push. -/
theorem pushesOf_not_fetched {x : Key} {fetched : Finset Key} {l : List Fork}
    (hx : x ∈ pushesOf fetched l) : x ∉ fetched :=
  (mem_pushesOf.1 hx).choose_spec.2.2.2

/-- At most one push per processed record. -/
theorem pushesOf_length (fetched : Finset Key) (l : List Fork) :
    (pushesOf fetched l).length ≤ l.length := by
  unfold pushesOf
  rw [List.length_map]
  exact List.length_filter_le _ _

/-- The `yielded` set after a loop body holds the old keys and the
processed list's keys. -/
theorem mem_yieldSet : ∀ (l : List Fork) (y : Finset Key) (x : Key),
    x ∈ yieldSet y l ↔ x ∈ y ∨ x ∈ l.map keyOf
  | [], y, x => by simp [yieldSet]
  | f :: fs, y, x => by
    simp only [yieldSet, mem_yieldSet fs (insert (keyOf f) y) x,
      Finset.mem_insert, List.map_cons, List.mem_cons]
    tauto

/-- The keys yielded by a loop body are exactly the processed keys that
were not yet yielded. -/
theorem mem_yieldOuts_keys : ∀ (l : List Fork) (y : Finset Key) (x : Key),
    x ∈ (yieldOuts y l).map keyOf ↔ x ∈ l.map keyOf ∧ x ∉ y
  | [], y, x => by simp [yieldOuts]
  | f :: fs, y, x => by
    unfold yieldOuts
    split
    · rename_i hin
      rw [mem_yieldOuts_keys fs y x]
      simp only [List.map_cons, List.mem_cons]
      constructor
      · rintro ⟨hx, hy⟩
        exact ⟨Or.inr hx, hy⟩
      · rintro ⟨hx | hx, hy⟩
        · subst hx
          exact absurd hin hy
        · exact ⟨hx, hy⟩
    · rename_i hnin
      simp only [List.map_cons, List.mem_cons]
      rw [mem_yieldOuts_keys fs (insert (keyOf f) y) x]
      simp only [Finset.mem_insert]
      constructor
      · rintro (rfl | ⟨hx, hny⟩)
        · exact ⟨Or.inl rfl, hnin⟩
        · exact ⟨Or.inr hx, fun h => hny (Or.inr h)⟩
      · rintro ⟨hx | hx, hy⟩
        · exact Or.inl hx
        · by_cases hxf : x = keyOf f
          · exact Or.inl hxf
          · exact Or.inr ⟨hx, fun h => hy (h.resolve_left hxf)⟩

/-- The keys yielded by one loop body are pairwise distinct. -/
theorem yieldOuts_keys_nodup : ∀ (l : List Fork) (y : Finset Key),
    ((yieldOuts y l).map keyOf).Nodup
  | [], _ => by simp [yieldOuts]
  | f :: fs, y => by
    unfold yieldOuts
    split
    · exact yieldOuts_keys_nodup fs y
    · simp only [List.map_cons, List.nodup_cons]
      refine ⟨fun hmem => ?_, yieldOuts_keys_nodup fs _⟩
      have h := (mem_yieldOuts_keys fs (insert (keyOf f) y) (keyOf f)).1 hmem
      exact h.2 (Finset.mem_insert_self _ _)

/-! ## Termination of the traversal -/

/-- The head credit never exceeds `L`. -/
theorem headCredit_le (L : Nat) (s : TravState) : headCredit L s ≤ L := by
  unfold headCredit
  split
  · omega
  · split <;> omega

/-- The head credit of a state with a nonempty work list. -/
theorem headCredit_eq (L : Nat) (s : TravState) (x : Key) (t : List Key)
    (h : s.queue = x :: t) : headCredit L s = if x ∈ s.fetched then L else 0 := by
  unfold headCredit
  rw [h]

/-- One iteration on a nonempty work list strictly decreases the
termination measure, provided every queued key lies in the universe `U`
and `U`-keys have record lists of length at most `L`. -/
theorem stepT_measure_lt (env : Key → List Fork) (U : Finset Key) (L : Nat)
    (hlen : ∀ k ∈ U, (env k).length ≤ L)
    (s : TravState) (hq : s.queue ≠ []) (hQ : ∀ k ∈ s.queue, k ∈ U) :
    travMeasure U L (stepT env s) < travMeasure U L s := by
  obtain ⟨k, rest, hkr⟩ : ∃ k rest, s.queue = k :: rest := by
    cases hone : s.queue with
    | nil => exact absurd hone hq
    | cons a t => exact ⟨a, t, rfl⟩
  have hkU : k ∈ U := hQ k (by rw [hkr]; exact List.mem_cons_self k rest)
  have hstep : stepT env s =
      { fetched := insert k s.fetched
        yielded := yieldSet s.yielded (env k)
        queue := (pushesOf (insert k s.fetched) (env k)).reverse ++ rest
        out := s.out ++ yieldOuts s.yielded (env k)
        log := s.log ++ [k] } := by
    unfold stepT
    rw [hkr]
  set P := pushesOf (insert k s.fetched) (env k) with hP
  have hfetched : (stepT env s).fetched = insert k s.fetched := by rw [hstep]
  have hqueue : (stepT env s).queue = P.reverse ++ rest := by rw [hstep]
  have hPlen : P.length ≤ L := le_trans (pushesOf_length _ _) (hlen k hkU)
  have hcredit : P.length + headCredit L (stepT env s) ≤ L := by
    cases hP0 : P with
    | nil =>
      have := headCredit_le L (stepT env s)
      simp only [hP0, List.length_nil]
      omega
    | cons p ps =>
      obtain ⟨h0, t0, hht⟩ : ∃ h0 t0, P.reverse = h0 :: t0 := by
        cases hrev2 : P.reverse with
        | nil =>
          rw [List.reverse_eq_nil_iff] at hrev2
          rw [hrev2] at hP0
          cases hP0
        | cons a t => exact ⟨a, t, rfl⟩
      have hh0P : h0 ∈ P := by
        rw [← List.mem_reverse, hht]
        exact List.mem_cons_self h0 t0
      have hh0 : h0 ∉ insert k s.fetched := pushesOf_not_fetched hh0P
      have hq2 : (stepT env s).queue = h0 :: (t0 ++ rest) := by
        rw [hqueue, hht]
        rfl
      have hcz : headCredit L (stepT env s) = 0 := by
        rw [headCredit_eq L (stepT env s) h0 (t0 ++ rest) hq2, hfetched, if_neg hh0]
      rw [hcz, ← hP0]
      omega
  have hlen2 : (stepT env s).queue.length = P.length + rest.length := by
    rw [hqueue, List.length_append, List.length_reverse]
  by_cases hkf : k ∈ s.fetched
  · have hins : insert k s.fetched = s.fetched := Finset.insert_eq_self.2 hkf
    have hold : headCredit L s = L := by
      rw [headCredit_eq L s k rest hkr, if_pos hkf]
    unfold travMeasure
    rw [hfetched, hins, hlen2, hold, hkr, List.length_cons]
    omega
  · have hcard : (U \ insert k s.fetched).card < (U \ s.fetched).card := by
      apply Finset.card_lt_card
      rw [Finset.ssubset_iff_of_subset
        (Finset.sdiff_subset_sdiff (le_refl U) (Finset.subset_insert k s.fetched))]
      exact ⟨k, Finset.mem_sdiff.2 ⟨hkU, hkf⟩, fun hc =>
        (Finset.mem_sdiff.1 hc).2 (Finset.mem_insert_self k s.fetched)⟩
    have hold : headCredit L s = 0 := by
      rw [headCredit_eq L s k rest hkr, if_neg hkf]
    have hmul : (2 * L + 1) * (U \ insert k s.fetched).card + (2 * L + 1) ≤
        (2 * L + 1) * (U \ s.fetched).card := by
      have h1 : (U \ insert k s.fetched).card + 1 ≤ (U \ s.fetched).card := hcard
      have h2 := Nat.mul_le_mul_left (2 * L + 1) h1
      rw [Nat.mul_add, Nat.mul_one] at h2
      exact h2
    have hcred2 := headCredit_le L (stepT env s)
    unfold travMeasure
    rw [hfetched, hlen2, hold, hkr, List.length_cons]
    omega

/-- One iteration keeps every queued key inside a universe closed under
expandable forks. -/
theorem stepT_queue_in_U (env : Key → List Fork) (U : Finset Key)
    (hclosedU : ∀ k ∈ U, ∀ f ∈ env k, f.forks ≠ 0 → keyOf f ∈ U)
    (s : TravState) (hQ : ∀ k ∈ s.queue, k ∈ U) :
    ∀ x ∈ (stepT env s).queue, x ∈ U := by
  intro x hx
  cases hkr : s.queue with
  | nil =>
    have hid : stepT env s = s := by
      unfold stepT
      rw [hkr]
    rw [hid] at hx
    exact hQ x hx
  | cons k rest =>
    have hkU : k ∈ U := hQ k (by rw [hkr]; exact List.mem_cons_self k rest)
    have hqueue : (stepT env s).queue =
        (pushesOf (insert k s.fetched) (env k)).reverse ++ rest := by
      unfold stepT
      rw [hkr]
    rw [hqueue] at hx
    rcases List.mem_append.1 hx with hx1 | hx2
    · rw [List.mem_reverse] at hx1
      obtain ⟨f, hf, rfl, hforks, _⟩ := mem_pushesOf.1 hx1
      exact hclosedU k hkU f hf hforks
    · exact hQ x (by rw [hkr]; exact List.mem_cons_of_mem k hx2)

/-- With fuel at least the termination measure, the `while queue` loop
drains the work list completely. -/
theorem runT_queue_empty (env : Key → List Fork) (U : Finset Key) (L : Nat)
    (hclosedU : ∀ k ∈ U, ∀ f ∈ env k, f.forks ≠ 0 → keyOf f ∈ U)
    (hlen : ∀ k ∈ U, (env k).length ≤ L) :
    ∀ (n : Nat) (s : TravState), (∀ k ∈ s.queue, k ∈ U) →
      travMeasure U L s ≤ n → (runT env n s).queue = []
  | 0, s, _, hm => by
    unfold travMeasure at hm
    have : s.queue.length = 0 := by omega
    rw [List.length_eq_zero] at this
    simpa [runT] using this
  | n + 1, s, hQ, hm => by
    cases hkr : s.queue with
    | nil =>
      simp only [runT, hkr]
    | cons k rest =>
      have hq : s.queue ≠ [] := by rw [hkr]; exact List.cons_ne_nil k rest
      have hlt := stepT_measure_lt env U L hlen s hq hQ
      have hrec := runT_queue_empty env U L hclosedU hlen n (stepT env s)
        (stepT_queue_in_U env U hclosedU s hQ) (by omega)
      simpa only [runT, hkr] using hrec

/-- C6: recursive traversal terminates on every finite fork graph — for
any key universe `U` containing the seed, closed under expandable forks,
and with record streams of length at most `L`, the work list is empty
after `(2L+1)·|U| + 1` iterations — and on the two-cycle graph (`alice/ra`
and `bob/rb` each listing the other as a fork) it yields both
repositories exactly once each. -/
theorem traversal_terminates (env : Key → List Fork) (U : Finset Key) (L : Nat)
    (user repo : String) (hseed : (user, repo) ∈ U)
    (hclosedU : ∀ k ∈ U, ∀ f ∈ env k, f.forks ≠ 0 → keyOf f ∈ U)
    (hlen : ∀ k ∈ U, (env k).length ≤ L) :
    (get_forks_recursive env user repo ((2 * L + 1) * U.card + 1)).queue = [] ∧
    (get_forks_recursive envCycle "alice" "ra" 11).out.map keyOf =
      [("alice", "ra"), ("bob", "rb")] := by
  refine ⟨?_, rfl⟩
  unfold get_forks_recursive
  apply runT_queue_empty env U L hclosedU hlen
  · intro x hx
    have hx2 : x = (user, repo) := by simpa [initT] using hx
    rw [hx2]
    exact hseed
  · unfold travMeasure headCredit initT
    simp only [Finset.sdiff_empty, List.length_cons, List.length_nil]
    rw [if_neg (by simp)]

/-- Witness for `traversal_terminates`: on the two-cycle graph with
universe `cycleU` and record-stream bound 2 the traversal drains its work
list (in `(2·2+1)·2 + 1 = 11` iterations) and yields each of the two
repositories exactly once. -/
theorem traversal_terminates_witness :
    (get_forks_recursive envCycle "alice" "ra"
        ((2 * 2 + 1) * cycleU.card + 1)).queue = [] ∧
    (get_forks_recursive envCycle "alice" "ra" 11).out.map keyOf =
      [("alice", "ra"), ("bob", "rb")] :=
  traversal_terminates envCycle cycleU 2 "alice" "ra" (by decide) (by decide)
    (by decide)



/-! ## The dedup invariant of the traversal -/

/-- An empty work list makes an iteration a no-op. -/
theorem stepT_of_nil (env : Key → List Fork) (s : TravState)
    (h : s.queue = []) : stepT env s = s := by
  unfold stepT
  rw [h]

/-- One iteration preserves the traversal invariant. -/
theorem travInv_step (env : Key → List Fork) (seed : Key) (s : TravState)
    (inv : TravInv env seed s) : TravInv env seed (stepT env s) := by
  cases hkr : s.queue with
  | nil =>
    rw [stepT_of_nil env s hkr]
    exact inv
  | cons k rest =>
    have hkexp : Expanded env seed k :=
      inv.queue_exp k (by rw [hkr]; exact List.mem_cons_self k rest)
    have hstep : stepT env s =
        { fetched := insert k s.fetched
          yielded := yieldSet s.yielded (env k)
          queue := (pushesOf (insert k s.fetched) (env k)).reverse ++ rest
          out := s.out ++ yieldOuts s.yielded (env k)
          log := s.log ++ [k] } := by
      unfold stepT
      rw [hkr]
    rw [hstep]
    constructor
    · -- nodup
      rw [List.map_append]
      refine inv.nodup.append (yieldOuts_keys_nodup (env k) s.yielded) ?_
      intro x hxold hxnew
      have hy := (inv.out_yielded x).1 hxold
      exact ((mem_yieldOuts_keys (env k) s.yielded x).1 hxnew).2 hy
    · -- out_yielded
      intro x
      rw [List.map_append, List.mem_append, mem_yieldSet,
        mem_yieldOuts_keys (env k) s.yielded x, inv.out_yielded x]
      by_cases hy : x ∈ s.yielded <;> simp [hy]
    · -- yielded_fetched
      intro x
      constructor
      · intro hx
        rcases (mem_yieldSet (env k) s.yielded x).1 hx with hy | hk2
        · obtain ⟨p, hp, f, hf, hfx⟩ := (inv.yielded_fetched x).1 hy
          exact ⟨p, Finset.mem_insert_of_mem hp, f, hf, hfx⟩
        · obtain ⟨f, hf, hfx⟩ := List.mem_map.1 hk2
          exact ⟨k, Finset.mem_insert_self k s.fetched, f, hf, hfx⟩
      · rintro ⟨p, hp, f, hf, hfx⟩
        apply (mem_yieldSet (env k) s.yielded x).2
        rcases Finset.mem_insert.1 hp with rfl | hp2
        · exact Or.inr (List.mem_map.2 ⟨f, hf, hfx⟩)
        · exact Or.inl ((inv.yielded_fetched x).2 ⟨p, hp2, f, hf, hfx⟩)
    · -- fetched_exp
      intro p hp
      rcases Finset.mem_insert.1 hp with rfl | hp2
      · exact hkexp
      · exact inv.fetched_exp p hp2
    · -- queue_exp
      intro x hx
      rcases List.mem_append.1 hx with hx1 | hx2
      · rw [List.mem_reverse] at hx1
        obtain ⟨f, hf, rfl, hforks, _⟩ := mem_pushesOf.1 hx1
        exact Expanded.step hkexp hf hforks
      · exact inv.queue_exp x (by rw [hkr]; exact List.mem_cons_of_mem k hx2)
    · -- seed_mem
      rcases inv.seed_mem with h | h
      · exact Or.inl (Finset.mem_insert_of_mem h)
      · rw [hkr] at h
        rcases List.mem_cons.1 h with rfl | h2
        · exact Or.inl (Finset.mem_insert_self seed s.fetched)
        · exact Or.inr (List.mem_append_right _ h2)
    · -- closed_mem
      intro p hp f hf hforks
      rcases Finset.mem_insert.1 hp with rfl | hp2
      · by_cases hni : keyOf f ∈ insert p s.fetched
        · exact Or.inl hni
        · refine Or.inr (List.mem_append_left _ ?_)
          rw [List.mem_reverse]
          exact mem_pushesOf.2 ⟨f, hf, rfl, hforks, hni⟩
      · rcases inv.closed_mem p hp2 f hf hforks with h | h
        · exact Or.inl (Finset.mem_insert_of_mem h)
        · rw [hkr] at h
          rcases List.mem_cons.1 h with heq | h2
          · rw [heq]
            exact Or.inl (Finset.mem_insert_self k s.fetched)
          · exact Or.inr (List.mem_append_right _ h2)

/-- The loop preserves the traversal invariant for any amount of fuel. -/
theorem travInv_runT (env : Key → List Fork) (seed : Key) :
    ∀ (n : Nat) (s : TravState), TravInv env seed s →
      TravInv env seed (runT env n s)
  | 0, _, inv => inv
  | n + 1, s, inv => by
    cases hkr : s.queue with
    | nil =>
      simpa only [runT, hkr] using inv
    | cons k rest =>
      simpa only [runT, hkr] using
        travInv_runT env seed n (stepT env s) (travInv_step env seed s inv)

/-- When the work list has drained, every expanded key has been fetched. -/
theorem expanded_fetched_of_empty (env : Key → List Fork) (seed : Key)
    (s : TravState) (inv : TravInv env seed s) (hq : s.queue = []) :
    ∀ p, Expanded env seed p → p ∈ s.fetched := by
  intro p hp
  induction hp with
  | seed =>
    rcases inv.seed_mem with h | h
    · exact h
    · rw [hq] at h
      cases h
  | step hexp hf hforks ih =>
    rcases inv.closed_mem _ ih _ hf hforks with h | h
    · exact h
    · rw [hq] at h
      cases h

/-- The initial state satisfies the traversal invariant. -/
theorem travInv_init (env : Key → List Fork) (user repo : String) :
    TravInv env (user, repo) (initT user repo) := by
  constructor
  · simp [initT]
  · simp [initT]
  · simp [initT]
  · simp [initT]
  · intro p hp
    have hp2 : p = (user, repo) := by simpa [initT] using hp
    rw [hp2]
    exact Expanded.seed
  · exact Or.inr (by simp [initT])
  · simp [initT]

/-- C1: whenever the recursive traversal runs to completion (its work list
drains), the keys of the yielded records are pairwise distinct and are
exactly the identity keys reachable in the fork graph — each distinct
reachable `(owner, name)` pair is yielded exactly once, no matter how many
parents' fork lists carry it. -/
theorem traversal_yields_each_reachable_once (env : Key → List Fork)
    (user repo : String) (fuel : Nat)
    (hterm : (get_forks_recursive env user repo fuel).queue = []) :
    ((get_forks_recursive env user repo fuel).out.map keyOf).Nodup ∧
    (∀ x, x ∈ (get_forks_recursive env user repo fuel).out.map keyOf ↔
      ReachKey env (user, repo) x) := by
  have inv := travInv_runT env (user, repo) fuel (initT user repo)
    (travInv_init env user repo)
  refine ⟨inv.nodup, fun x => ?_⟩
  constructor
  · intro hx
    obtain ⟨p, hp, f, hf, hfx⟩ := (inv.yielded_fetched x).1 ((inv.out_yielded x).1 hx)
    exact ⟨p, f, inv.fetched_exp p hp, hf, hfx⟩
  · rintro ⟨p, f, hexp, hf, hfx⟩
    have hpf : p ∈ (runT env fuel (initT user repo)).fetched :=
      expanded_fetched_of_empty env (user, repo) _ inv hterm p hexp
    exact (inv.out_yielded x).2 ((inv.yielded_fetched x).2 ⟨p, hpf, f, hf, hfx⟩)

/-- Witness for `traversal_yields_each_reachable_once`: on the
double-discovery graph (where `al/r2` is listed by two parents) the
completed traversal yields pairwise-distinct keys, exactly the reachable
ones. -/
theorem traversal_yields_each_reachable_once_witness :
    ((get_forks_recursive envDouble "sam" "rs" 10).out.map keyOf).Nodup ∧
    (∀ x, x ∈ (get_forks_recursive envDouble "sam" "rs" 10).out.map keyOf ↔
      ReachKey envDouble ("sam", "rs") x) :=
  traversal_yields_each_reachable_once envDouble "sam" "rs" 10 (by decide)


/-! ## Refetching behaviour of the traversal -/

/-- C2 counterexample: in the double-discovery graph, `al/r2` is discovered
as a fork of `sam/rs` and again as a fork of `bo/r2` before it is first
processed, so it is enqueued twice and passed to `get_forks` twice — its
fork list is fetched twice in a single traversal. -/
theorem refetch_on_double_discovery :
    (get_forks_recursive envDouble "sam" "rs" 10).log.count ("al", "r2") = 2 := rfl

/-- C2 (amended): once a key is in the fetched set it is never enqueued
again, so from any such point the number of further `get_forks` calls on it
is bounded by the number of entries for it already on the work list; but a
key discovered as a fork of two different parents before it is first
processed can sit on the work list twice and have its fork list fetched
twice. -/
theorem fetched_key_not_reenqueued (env : Key → List Fork) (s : TravState)
    (k : Key) (fuel : Nat) (hk : k ∈ s.fetched) :
    (runT env fuel s).log.count k ≤ s.log.count k + s.queue.count k := by
  induction fuel generalizing s with
  | zero => exact Nat.le_add_right _ _
  | succ fuel ih =>
    cases hkr : s.queue with
    | nil =>
      simp only [runT, hkr]
      exact Nat.le_add_right _ _
    | cons k0 rest =>
      rw [← hkr]
      have hstep : stepT env s =
          { fetched := insert k0 s.fetched
            yielded := yieldSet s.yielded (env k0)
            queue := (pushesOf (insert k0 s.fetched) (env k0)).reverse ++ rest
            out := s.out ++ yieldOuts s.yielded (env k0)
            log := s.log ++ [k0] } := by
        unfold stepT
        rw [hkr]
      have hk2 : k ∈ (stepT env s).fetched := by
        rw [hstep]
        exact Finset.mem_insert_of_mem hk
      have hbound := ih (stepT env s) hk2
      have hnotP : k ∉ pushesOf (insert k0 s.fetched) (env k0) :=
        fun hmem => pushesOf_not_fetched hmem (Finset.mem_insert_of_mem hk)
      have hcount : (stepT env s).log.count k + (stepT env s).queue.count k ≤
          s.log.count k + s.queue.count k := by
        have hlog : (stepT env s).log = s.log ++ [k0] := by rw [hstep]
        have hque : (stepT env s).queue =
            (pushesOf (insert k0 s.fetched) (env k0)).reverse ++ rest := by
          rw [hstep]
        rw [hlog, hque, hkr, List.count_append, List.count_append,
          List.count_reverse, List.count_eq_zero.2 hnotP, List.count_cons,
          List.count_cons]
        cases hbeq : k0 == k
        all_goals simp [hbeq]
        all_goals omega
      calc (runT env (fuel + 1) s).log.count k
          = (runT env fuel (stepT env s)).log.count k := by
            simp only [runT, hkr]
        _ ≤ (stepT env s).log.count k + (stepT env s).queue.count k := hbound
        _ ≤ s.log.count k + s.queue.count k := hcount

/-- Witness for `fetched_key_not_reenqueued`: from a state where `al/r2` is
already fetched and queued twice, the rest of the run fetches it at most
twice more. -/
theorem fetched_key_not_reenqueued_witness :
    (runT envDouble 10
        { fetched := {("al", "r2")}, yielded := ∅,
          queue := [("al", "r2"), ("al", "r2")], out := [], log := [] }).log.count
        ("al", "r2") ≤
      ([] : List Key).count ("al", "r2") +
        [("al", "r2"), ("al", "r2")].count ("al", "r2") :=
  fetched_key_not_reenqueued envDouble
    { fetched := {("al", "r2")}, yielded := ∅,
      queue := [("al", "r2"), ("al", "r2")], out := [], log := [] }
    ("al", "r2") 10 (by decide)

end GithubReindex
